import Mathlib

/-!
# Verification of the ggpk-index-server catalog ingestion and search engine

This file shallowly embeds the Rust sources of the ggpk-index-server
repository (src/index/ggpk.rs, src/index/updater.rs, src/index/state.rs,
src/routes/version.rs, src/routes/browse.rs) and proves or refutes the
frozen claims about them.

Modelling conventions:
* Rust `str`/`String` values are modelled as `Str := List Nat`, the list of
  their UTF-8 bytes (Rust strings are exactly UTF-8 byte sequences, and all
  splitting done by the program is on ASCII bytes, for which byte-level and
  character-level splitting agree).
* Machine integers are `Nat`, with explicit `% 2 ^ 64` where the Rust code
  relies on wrapping 64-bit arithmetic (the MurmurHash64A implementation).
* Fallible code returns `Option`/`Except`; a Rust panic is modelled as a
  distinct outcome constructor where a claim is about abnormal termination.
* Network effects (HTTP fetches, TCP reads) are modelled by passing the
  fetched bytes, or an abstract fetch function, as explicit parameters.
-/

/-- A Rust string, as its list of UTF-8 bytes. -/
abbrev Str := List Nat

/-- Byte value of `'/'`. -/
def slashB : Nat := 47

/-- Byte value of `'.'`. -/
def dotB : Nat := 46

/-- `str::rsplit_once(c)`: split at the last occurrence of byte `c`,
returning `(before, after)` without the separator, or `none` when `c` does
not occur.  Mirrors the Rust standard-library function used throughout
`ggpk.rs` and `browse.rs`. -/
def rsplitOnce (c : Nat) : Str → Option (Str × Str)
  | [] => none
  | b :: rest =>
    match rsplitOnce c rest with
    | some (d, s) => some (b :: d, s)
    | none => if b = c then some ([], rest) else none

theorem rsplitOnce_eq_none {c : Nat} :
    ∀ {p : Str}, rsplitOnce c p = none ↔ c ∉ p := by
  intro p
  induction p with
  | nil => simp [rsplitOnce]
  | cons b rest ih =>
    simp only [rsplitOnce, List.mem_cons]
    cases hr : rsplitOnce c rest with
    | some pair =>
      obtain ⟨d, s⟩ := pair
      have hmem : c ∈ rest := by
        by_contra hc
        rw [ih.mpr hc] at hr
        cases hr
      simp [hmem]
    | none =>
      have hcr : c ∉ rest := ih.mp hr
      by_cases hb : b = c
      · subst hb
        simp [hcr]
      · simp [hb, hcr, Ne.symm hb]

theorem rsplitOnce_eq_some {c : Nat} :
    ∀ {p d t : Str}, rsplitOnce c p = some (d, t) → p = d ++ c :: t ∧ c ∉ t := by
  intro p
  induction p with
  | nil => intro d t h; cases h
  | cons b rest ih =>
    intro d t h
    simp only [rsplitOnce] at h
    cases hr : rsplitOnce c rest with
    | some pair =>
      obtain ⟨d', t'⟩ := pair
      rw [hr] at h
      simp only [Option.some.injEq, Prod.mk.injEq] at h
      obtain ⟨hd, ht⟩ := h
      obtain ⟨he, hn⟩ := ih hr
      subst hd
      subst ht
      exact ⟨by simp [he], hn⟩
    | none =>
      rw [hr] at h
      by_cases hb : b = c
      · rw [if_pos hb] at h
        simp only [Option.some.injEq, Prod.mk.injEq] at h
        obtain ⟨hd, ht⟩ := h
        subst hd
        subst ht
        exact ⟨by simp [hb], rsplitOnce_eq_none.mp hr⟩
      · rw [if_neg hb] at h
        cases h

theorem rsplitOnce_length_lt {c : Nat} {p d t : Str}
    (h : rsplitOnce c p = some (d, t)) : d.length < p.length := by
  obtain ⟨he, _⟩ := rsplitOnce_eq_some h
  rw [he]; simp

/-! ## `GET /version` (src/routes/version.rs, `handler`)

The handler pattern-matches the live URL list against a two-element slice;
any other length yields `String::default()` (the empty string). -/

/-- `routes::version::handler`, given the live url list and the `poe`
query parameter. -/
def version_handler (urls : List Str) (poe : Nat) : Str :=
  match urls with
  | [poe1, poe2] => if poe = 1 then poe1 else poe2
  | _ => []

/-- C9 counterexample: with three live versions (`"1"`, `"2"`, `"3"`) the
handler returns the empty string even though at least two versions are
live, contradicting the claim that the empty string is returned exactly
when fewer than two versions are live. -/
theorem version_handler_three_live_empty :
    version_handler [[49], [50], [51]] 1 = [] ∧
      2 ≤ ([[49], [50], [51]] : List Str).length := by
  constructor
  · rfl
  · simp

/-- C9 (amended): `poe=1` returns the first slot and any other `poe` the
second slot when the live list has exactly two entries; whenever the live
list length differs from 2 (zero, one, or three-or-more entries) the
handler returns the empty string. -/
theorem version_handler_spec (urls : List Str) (poe : Nat) :
    (∀ a b, urls = [a, b] →
        version_handler urls poe = if poe = 1 then a else b) ∧
      (urls.length ≠ 2 → version_handler urls poe = []) := by
  constructor
  · intro a b h; subst h; rfl
  · intro h
    match urls with
    | [] => rfl
    | [_] => rfl
    | [_, _] => simp at h
    | _ :: _ :: _ :: _ => rfl

/-- Witness for `version_handler_spec` at the concrete live list
`["1","2"]` and at the too-long list `["1","2","3"]`. -/
theorem version_handler_spec_witness :
    version_handler [[49], [50]] 1 = [49] ∧ version_handler [[49], [50], [51]] 2 = [] :=
  ⟨(version_handler_spec [[49], [50]] 1).1 [49] [50] rfl,
   (version_handler_spec [[49], [50], [51]] 2).2 (by simp)⟩

/-! ## `GET /files` limit handling (src/routes/browse.rs, `handler` and
`perform_query`)

The handler turns `limit=Some(0)` into `None`, the `search` branch then
defaults a `None` limit to `Some(50)`, `perform_query` picks a top-docs
collector when a limit is present and the collect-all collector otherwise,
and the handler post-sorts the results exactly when the limit is `None`. -/

/-- The `q` command vocabulary of `browse::Params` (`Ready` is the serde
default). -/
inductive Command
  | ready
  | details
  | index
  | subfolders
  | search
deriving DecidableEq

/-- `browse::NodeType`: `Dir` is declared before `File`, so the derived
Rust `Ord` has `dir < file` (and sprite documents are rendered as `File`
nodes, hence `file == sprite` in the sort). Only the fields the post-sort
reads are modelled. -/
inductive NodeType
  | dir
  | file
deriving DecidableEq

structure Node where
  node_type : NodeType
  path : Str
  basename : Str
deriving DecidableEq

/-- Derived `Ord` on `browse::NodeType` (declaration order). -/
def cmpNodeType : NodeType → NodeType → Ordering
  | .dir, .dir => .eq
  | .dir, .file => .lt
  | .file, .dir => .gt
  | .file, .file => .eq

/-- Rust `str::cmp`: byte-wise lexicographic comparison. -/
def cmpStr : Str → Str → Ordering
  | [], [] => .eq
  | [], _ :: _ => .lt
  | _ :: _, [] => .gt
  | a :: as, b :: bs => (compare a b).then (cmpStr as bs)

/-- The comparator of the `files.sort_by` call in `browse::handler`:
`(type, path, basename)` ascending. -/
def cmpNode (l r : Node) : Ordering :=
  ((cmpNodeType l.node_type r.node_type).then (cmpStr l.path r.path)).then
    (cmpStr l.basename r.basename)

/-- The post-sort applied by `browse::handler` when no limit is in effect
(Rust `sort_by` is a stable sort, modelled by the stable `mergeSort`). -/
def sortNodes (ns : List Node) : List Node :=
  ns.mergeSort (fun a b => !(cmpNode a b == Ordering.gt))

/-- The limit actually in effect for a non-`ready` command: `Some(0)` is
first turned into `None` (browse.rs lines 133-135), then the `search`
branch defaults `None` to `Some(50)` (lines 188-191). -/
def effLimit (cmd : Command) (limit : Option Nat) : Option Nat :=
  let l1 := if limit = some 0 then none else limit
  match cmd, l1 with
  | Command.search, none => some 50
  | _, l => l

/-- The collector chosen by `perform_query`: `TopDocs::with_limit` when a
limit is present, the custom `CollectAll` collector otherwise. -/
inductive Collector
  | collectAll
  | topDocs (l : Nat)
deriving DecidableEq

def collectorOf : Option Nat → Collector
  | some l => .topDocs l
  | none => .collectAll

/-- The result pipeline of `browse::handler` for a non-`ready` command:
run the query through the chosen collector (`allMatches` abstracts what
`CollectAll` returns for the composed query, `top k` what
`TopDocs::with_limit(k)` returns), then post-sort exactly when the
effective limit is `None`. -/
def runQuery (allMatches : List Node) (top : Nat → List Node)
    (cmd : Command) (limit0 : Option Nat) : List Node :=
  let l := effLimit cmd limit0
  let files :=
    match collectorOf l with
    | .collectAll => allMatches
    | .topDocs k => top k
  if l = none then sortNodes files else files

/-- C10: a request with `limit=0` is treated as having no limit: for the
`index`, `subfolders` and `details` commands all matching documents are
collected and the `(type, path, basename)` post-sort is applied, while the
`search` command falls back to its default of the top 50 documents (no
post-sort). Moreover `limit=Some(0)` yields the same effective limit as an
absent limit for every command. -/
theorem limit_zero_treated_as_absent (allM : List Node) (top : Nat → List Node) :
    (∀ cmd, effLimit cmd (some 0) = effLimit cmd none)
    ∧ runQuery allM top Command.index (some 0) = sortNodes allM
    ∧ runQuery allM top Command.subfolders (some 0) = sortNodes allM
    ∧ runQuery allM top Command.details (some 0) = sortNodes allM
    ∧ effLimit Command.search (some 0) = some 50
    ∧ runQuery allM top Command.search (some 0) = top 50 := by
  refine ⟨?_, rfl, rfl, rfl, rfl, rfl⟩
  intro cmd
  cases cmd <;> rfl

/-! ## Watcher tick (src/index/updater.rs, `watch` and `try_reindex`)

A tick (after both announcement probes succeeded) diffs the discovered
list against the live list, and only on a non-empty diff runs the
re-index; the live list is replaced by the discovered list exactly when
the re-index returned successfully. `try_reindex` buffers deletions of the
removed versions and the documents of the added versions in a writer, and
nothing reaches the committed index unless the final `commit` succeeds.
The per-version ingestion (`ggpk::index`) performs network I/O, so it is
abstracted as a `fetch` function from a version URL to the documents it
contributes (or an error); a failing writer creation or commit is the
`commitOk = false` case. -/

/-- A committed index document, reduced to the fields the watcher logic
can observe: its `version` term and an opaque body. -/
structure MDoc where
  version : Str
  body : Nat
deriving DecidableEq

/-- The watcher-visible shared state: the live url list and the committed
index content. -/
structure WatchState where
  urls : List Str
  committed : List MDoc
deriving DecidableEq

/-- The `for r in &added { ggpk::index(r, ...)? }` loop of `try_reindex`:
ingest each added version in order, stopping at the first error. -/
def ingestAll (fetch : Str → Except Unit (List MDoc)) : List Str → Except Unit (List MDoc)
  | [] => .ok []
  | a :: rest =>
    match fetch a with
    | .error e => .error e
    | .ok ds =>
      match ingestAll fetch rest with
      | .error e => .error e
      | .ok more => .ok (ds ++ more)

/-- `updater::try_reindex`: delete every document whose version is in
`removed`, ingest every added version, commit. The committed index is
returned only on full success; any ingestion error or a failed commit
leaves it untouched (the writer is dropped uncommitted). -/
def try_reindex (fetch : Str → Except Unit (List MDoc)) (commitOk : Bool)
    (committed : List MDoc) (removed added : List Str) : Except Unit (List MDoc) :=
  let afterDel := committed.filter (fun d => !(removed.contains d.version))
  match ingestAll fetch added with
  | .error e => .error e
  | .ok newDocs => if commitOk then .ok (afterDel ++ newDocs) else .error ()

/-- One body iteration of `updater::watch` after both `check_urls` calls
succeeded with candidate list `updated`. -/
def watch_tick (fetch : Str → Except Unit (List MDoc)) (commitOk : Bool)
    (st : WatchState) (updated : List Str) : WatchState :=
  let removed := st.urls.filter (fun u => !(updated.contains u))
  let added := updated.filter (fun u => !(st.urls.contains u))
  if removed.isEmpty && added.isEmpty then st
  else
    match try_reindex fetch commitOk st.committed removed added with
    | .ok docs => { urls := updated, committed := docs }
    | .error _ => st

/-- C3: when the added/removed diff is empty, a tick modifies neither the
index nor the live list; when the diff is non-empty, a failed re-index
(any ingestion error or failed commit) leaves the whole state unchanged,
and a successful re-index replaces the live list with the discovered list
and the committed index with the re-indexed documents. -/
theorem watch_tick_spec (fetch : Str → Except Unit (List MDoc)) (commitOk : Bool)
    (st : WatchState) (updated : List Str) :
    (st.urls.filter (fun u => !(updated.contains u)) = [] →
      updated.filter (fun u => !(st.urls.contains u)) = [] →
      watch_tick fetch commitOk st updated = st)
    ∧ (∀ e, try_reindex fetch commitOk st.committed
          (st.urls.filter (fun u => !(updated.contains u)))
          (updated.filter (fun u => !(st.urls.contains u))) = .error e →
        watch_tick fetch commitOk st updated = st)
    ∧ (∀ docs,
        try_reindex fetch commitOk st.committed
          (st.urls.filter (fun u => !(updated.contains u)))
          (updated.filter (fun u => !(st.urls.contains u))) = .ok docs →
        (st.urls.filter (fun u => !(updated.contains u)) ≠ [] ∨
          updated.filter (fun u => !(st.urls.contains u)) ≠ []) →
        watch_tick fetch commitOk st updated = { urls := updated, committed := docs }) := by
  refine ⟨?_, ?_, ?_⟩
  · intro h1 h2
    simp only [watch_tick, h1, h2]
    rfl
  · intro e he
    simp only [watch_tick]
    split
    · rfl
    · rw [he]
  · intro docs hok hne
    simp only [watch_tick]
    split
    · rename_i hcond
      rw [Bool.and_eq_true, List.isEmpty_iff, List.isEmpty_iff] at hcond
      rcases hne with hn | hn
      · exact absurd hcond.1 hn
      · exact absurd hcond.2 hn
    · rw [hok]

/-- Witness for `watch_tick_spec`: an empty diff leaves the state alone,
and a successful re-index of one added version publishes the new list and
documents. -/
theorem watch_tick_spec_witness :
    watch_tick (fun _ => Except.ok ([] : List MDoc)) true ⟨[[97]], []⟩ [[97]] = ⟨[[97]], []⟩
    ∧ watch_tick (fun _ => Except.ok ([⟨[98], 5⟩] : List MDoc)) true ⟨[], []⟩ [[98]]
        = ⟨[[98]], [⟨[98], 5⟩]⟩ :=
  ⟨(watch_tick_spec (fun _ => Except.ok []) true ⟨[[97]], []⟩ [[97]]).1 rfl rfl,
   (watch_tick_spec (fun _ => Except.ok [⟨[98], 5⟩]) true ⟨[], []⟩ [[98]]).2.2
     [⟨[98], 5⟩] rfl (Or.inr (by decide))⟩

/-! ## Version-announcement decoder (src/index/updater.rs,
`try_check_urls`)

After discarding the 34-byte preamble the code walks length-prefixed
records. The declared length `len` counts UTF-16 code units (2 bytes
each), but the guard compares `len` against the remaining *byte* count
(`len > data.len()`). When `len ≤ data.len() < 2·len`, the guard passes
and the code then terminates abnormally: either `chunks(2)` yields a final
1-byte chunk whose `try_into().unwrap()` panics, or (with an even
remainder) the subsequent `data = &data[2*len..]` slice is out of bounds
and panics. The model makes the panic an explicit outcome. -/

inductive NetResult
  | ok (urls : List (List Nat))
  | err
  | panic
deriving DecidableEq

/-- `slice::chunks(2)`: chunks of two bytes, the last possibly of one. -/
def chunks2 : List Nat → List (List Nat)
  | [] => []
  | [a] => [[a]]
  | a :: b :: rest => [a, b] :: chunks2 rest

/-- Success condition of `String::from_utf16` on a list of code units:
every high surrogate is immediately followed by a low surrogate and no
low surrogate appears on its own. -/
def utf16Valid : List Nat → Bool
  | [] => true
  | u :: rest =>
    if 0xD800 ≤ u ∧ u ≤ 0xDBFF then
      match rest with
      | v :: rest' => if 0xDC00 ≤ v ∧ v ≤ 0xDFFF then utf16Valid rest' else false
      | [] => false
    else if 0xDC00 ≤ u ∧ u ≤ 0xDFFF then false
    else utf16Valid rest

/-- The record loop of `try_check_urls` over `&buf[34..read]`, with `out`
the URLs accumulated so far (a decoded string is modelled as its list of
UTF-16 code units). The checks appear in source order: the `len >
data.len()` guard, the `try_into().unwrap()` of each taken chunk, the
`from_utf16` conversion, and the `&data[2*len..]` re-slice. -/
def parseRecords (out : List (List Nat)) : List Nat → NetResult
  | [] => .ok out
  | len :: rest =>
    if len = 0 then parseRecords out rest
    else if rest.length < len then .err
    else
      let taken := (chunks2 rest).take len
      if taken.any (fun c => c.length ≠ 2) then .panic
      else
        let units := taken.map (fun c => c.getD 0 0 + 256 * c.getD 1 0)
        if utf16Valid units then
          if rest.length < 2 * len then .panic
          else parseRecords (if out.contains units then out else out ++ [units]) (rest.drop (2 * len))
        else .err
termination_by data => data.length
decreasing_by
  · simp
  · simp only [List.length_cons, List.length_drop]
    omega

/-- `updater::try_check_urls` on a fully read response buffer: fewer than
34 bytes is an error, otherwise the record loop runs on the remainder. -/
def try_check_urls (buf : List Nat) : NetResult :=
  if buf.length < 34 then .err else parseRecords [] (buf.drop 34)

/-- C7: on a response whose record region is `[2, 97, 0, 98]` — declared
length `L = 2 > 0` code units with only 3 < 2·L bytes remaining — the
decoder does not return an error as the claim requires: it terminates
abnormally (the `try_into().unwrap()` of the final 1-byte chunk panics). -/
theorem try_check_urls_panics_on_short_record :
    try_check_urls (List.replicate 34 0 ++ [2, 97, 0, 98]) = NetResult.panic
    ∧ 0 < 2 ∧ ([97, 0, 98] : List Nat).length < 2 * 2 := by
  have h34 : (List.replicate 34 0 ++ [2, 97, 0, 98] : List Nat).drop 34 = [2, 97, 0, 98] :=
    List.drop_left' (by simp)
  constructor
  · simp only [try_check_urls]
    rw [if_neg (by simp), h34]
    simp [parseRecords, chunks2]
  · exact ⟨by norm_num, by simp⟩

/-! ## Catalog ingestion (src/index/ggpk.rs)

`index` decodes the index bundle and walks the decoded path list; for each
path it builds a File document (`to_doc` plus the extension/sprite logic
of the `decode_paths` callback), queues prefix directories (`add_dirs`)
and captures sprite `.txt` documents. The network fetch, bundle
decompression and binary header parsing are upstream of the path walk, so
the walk is modelled as a function of the already-decoded inputs: the
bundle name/size tables, the hash→locator map and the emitted path list.
`decode_paths` itself is modelled separately below. -/

/-- Wrap-around modulus of 64-bit arithmetic. -/
def w64 : Nat := 2 ^ 64

/-- The MurmurHash64A multiplier constant `m`. -/
def mmM : Nat := 0xc6a4a7935bd1e995

/-- Little-endian value of a byte list (used for the 8-byte chunks and
for the tail `switch` of MurmurHash64A, whose shifted XORs amount to the
little-endian value of the remaining bytes). -/
def leBytes : List Nat → Nat
  | [] => 0
  | b :: rest => b + 256 * leBytes rest

/-- The 8-bytes-at-a-time loop and tail of MurmurHash64A
(`murmurhash64::murmur_hash64a`). -/
def murmurGo (h : Nat) : List Nat → Nat
  | b0 :: b1 :: b2 :: b3 :: b4 :: b5 :: b6 :: b7 :: rest =>
    let k := leBytes [b0, b1, b2, b3, b4, b5, b6, b7]
    let k := k * mmM % w64
    let k := k ^^^ (k >>> 47)
    let k := k * mmM % w64
    murmurGo ((h ^^^ k) * mmM % w64) rest
  | tail =>
    let h := if tail.isEmpty then h else (h ^^^ leBytes tail) * mmM % w64
    let h := h ^^^ (h >>> 47)
    let h := h * mmM % w64
    h ^^^ (h >>> 47)

/-- `murmurhash64::murmur_hash64a(key, seed)`: the 64-bit MurmurHash64A of
the UTF-8 bytes of a path. The ingester always calls it with seed
`0x1337b33f`. -/
def murmur64a (key : Str) (seed : Nat) : Nat :=
  murmurGo (seed ^^^ key.length * mmM % w64) key

/-- Lookup in the `files` hash→locator map (a `BTreeMap` in the source,
so keys are unique; modelled as first-match association-list lookup). -/
def lookupHash : List (Nat × Nat × Nat × Nat) → Nat → Option (Nat × Nat × Nat)
  | [], _ => none
  | (k, bi, off, sz) :: rest, key =>
    if k = key then some (bi, off, sz) else lookupHash rest key

/-- Modelled from the spec: the string value of `EntryType::FILE`. The
`state.rs` present in src is a stale revision (a `File`/`Folder` enum cast
to `u64`) that does not define the `FILE`/`DIR`/`SPRITE` string constants
its in-src callers `ggpk.rs` and `browse.rs` use; the spec gives their
values as `file`/`dir`/`sprite`. Bytes of `"file"`. -/
def FILEt : Str := [102, 105, 108, 101]

/-- Modelled from the spec: the string value of `EntryType::DIR` (see
`FILEt`). Bytes of `"dir"`. -/
def DIRt : Str := [100, 105, 114]

/-- Modelled from the spec: the string value of `EntryType::SPRITE` (see
`FILEt`). Bytes of `"sprite"`. -/
def SPRITEt : Str := [115, 112, 114, 105, 116, 101]

/-- A document assembled by the ingester. Optional fields model the
conditionally-added locator and extension values; `none` means the field
was never added to the `TantivyDocument`. -/
structure FileDoc where
  version : Str
  path : Str
  name : Str
  parent : Str
  typ : Str
  offset : Option Nat := none
  size : Option Nat := none
  bundle : Option Str := none
  bundle_size : Option Nat := none
  extension : Option Str := none
deriving DecidableEq

/-- `ggpk::to_doc`: split the filename on the last `/` for `name`/`parent`
(`("", filename)` when there is no slash), stamp `version`, `path` and
`type = FILE`, then add the four locator fields exactly when the
MurmurHash64A (seed `0x1337b33f`) of the filename is present in the
`files` map; a missing hash is logged and the locator fields stay absent.
The bundle name/size table indexing (a panicking `Vec` index in Rust) is
modelled with `getD`; no claim involves an out-of-range bundle index. -/
def to_doc (filename version : Str) (bundle_names : List Str)
    (bundle_sizes : List Nat) (files : List (Nat × Nat × Nat × Nat)) : FileDoc :=
  let dn := (rsplitOnce slashB filename).getD ([], filename)
  let loc := lookupHash files (murmur64a filename 0x1337b33f)
  { version := version
    path := filename
    name := dn.2
    parent := dn.1
    typ := FILEt
    offset := loc.map (fun l => l.2.1)
    size := loc.map (fun l => l.2.2)
    bundle := loc.map (fun l => bundle_names.getD l.1 [])
    bundle_size := loc.map (fun l => bundle_sizes.getD l.1 0) }

/-- The per-path document of the `decode_paths` callback in `ggpk::index`:
`to_doc` plus `extension` set to the substring after the last `.` of the
full filename whenever the filename contains a `.` (lines 57-58). -/
def pathDoc (version : Str) (bundle_names : List Str) (bundle_sizes : List Nat)
    (files : List (Nat × Nat × Nat × Nat)) (p : Str) : FileDoc :=
  let doc := to_doc p version bundle_names bundle_sizes files
  { doc with extension := (rsplitOnce dotB p).map (fun de => de.2) }

/-- Bytes of `"txt"`. -/
def txtB : Str := [116, 120, 116]

/-- Bytes of `"art"`. -/
def artB : Str := [97, 114, 116]

/-- Bytes of `".txt"`. -/
def dotTxtB : Str := [46, 116, 120, 116]

/-- Bytes of `"art/"`. -/
def artSlashB : Str := [97, 114, 116, 47]

/-- The sprite-capture condition of the callback (ggpk.rs line 59): the
substring after the last `.` equals `txt` and the filename starts with
`art` (no slash). -/
def isSpriteCaptured (p : Str) : Bool :=
  match rsplitOnce dotB p with
  | some de => de.2 == txtB && artB.isPrefixOf p
  | none => false

/-- `ggpk::add_dirs`: repeatedly strip the last path segment, inserting
each proper prefix into the `dirs` set, stopping early as soon as an
insertion finds the prefix already present. -/
def add_dirs (p : Str) (dirs : Finset Str) : Finset Str :=
  match h : rsplitOnce slashB p with
  | none => dirs
  | some (d, _) => if d ∈ dirs then dirs else add_dirs d (insert d dirs)
termination_by p.length
decreasing_by exact rsplitOnce_length_lt h

/-- The proper slash-delimited prefixes of a path, longest first:
`a/b/c.x ↦ [a/b, a]`. -/
def properPrefixes (p : Str) : List Str :=
  match h : rsplitOnce slashB p with
  | none => []
  | some (d, _) => d :: properPrefixes d
termination_by p.length
decreasing_by exact rsplitOnce_length_lt h

/-- The accumulating state of the path walk in `ggpk::index`: the
documents handed to the writer, the captured sprite documents, and the
`dirs` hash-set. -/
structure IngestResult where
  docs : List FileDoc
  sprites : List FileDoc
  dirs : Finset Str
deriving DecidableEq

/-- One iteration of the `decode_paths` callback in `ggpk::index`
(lines 47-68): build the document, add it to the writer, capture it as a
sprite when the condition holds, and queue the prefix directories. -/
def ingestStep (version : Str) (bundle_names : List Str) (bundle_sizes : List Nat)
    (files : List (Nat × Nat × Nat × Nat)) (r : IngestResult) (p : Str) : IngestResult :=
  let doc := pathDoc version bundle_names bundle_sizes files p
  { docs := r.docs ++ [doc]
    sprites := if isSpriteCaptured p then r.sprites ++ [doc] else r.sprites
    dirs := add_dirs p r.dirs }

/-- The path walk of `ggpk::index` over the whole decoded path list.
Phase 2 (`add_sprite`) later folds the network-fetched CSV record
filenames into the same `dirs` set with further `add_dirs` calls; those
are outside this model, but since `dirs` is a set and `add_dirs` only
inserts, they cannot change how often any path of this walk's prefixes
appears. -/
def ingest (version : Str) (bundle_names : List Str) (bundle_sizes : List Nat)
    (files : List (Nat × Nat × Nat × Nat)) (paths : List Str) : IngestResult :=
  paths.foldl (ingestStep version bundle_names bundle_sizes files) ⟨[], [], ∅⟩

/-- The Directory document built for one element of the `dirs` set
(ggpk.rs lines 74-83). -/
def mkDirDoc (version p : Str) : FileDoc :=
  let dn := (rsplitOnce slashB p).getD ([], p)
  { version := version, path := p, name := dn.2, parent := dn.1, typ := DIRt }

/-- The multiset of Directory documents written for a version: exactly one
per element of the final `dirs` set (the iteration order of the Rust
`HashSet` is unspecified, so only the multiset is meaningful). -/
def dirDocs (version : Str) (dirs : Finset Str) : Multiset FileDoc :=
  dirs.val.map (mkDirDoc version)

/-- ASCII lowercasing; stands in for Rust `str::to_lowercase` (full
Unicode lowercasing is irrelevant to every claim, which only concern the
`type` stamp of sprite documents). -/
def asciiLower (s : Str) : Str :=
  s.map (fun b => if 65 ≤ b ∧ b ≤ 90 then b + 32 else b)

/-- Bytes of `"art/sprites"`. -/
def artSpritesB : Str := [97, 114, 116, 47, 115, 112, 114, 105, 116, 101, 115]

/-- A sprite document as assembled by one loop iteration of
`ggpk::add_sprite` from a parsed CSV record `(filename, source, x, y, x2,
y2)`; the owning `.txt` path is `sprite_txt`. -/
structure SpriteDoc where
  version : Str
  typ : Str
  path : Str
  name : Str
  parent : Str
  sprite_sheet : Str
  sprite_txt : Option Str
  sprite_x : Nat
  sprite_y : Nat
  sprite_w : Nat
  sprite_h : Nat
deriving DecidableEq

/-- The document construction of `ggpk::add_sprite` (lines 140-178):
lowercase `filename` and `source`, split `filename` on its last `/` with
default parent `art/sprites`, stamp `type = SPRITE`, and store the
normalized rectangle (`min`, `abs_diff + 1`). -/
def mkSpriteDoc (version : Str) (sprite_txt : Option Str) (filename source : Str)
    (x y x2 y2 : Nat) : SpriteDoc :=
  let fn := asciiLower filename
  let dn := (rsplitOnce slashB fn).getD (artSpritesB, fn)
  { version := version
    typ := SPRITEt
    path := fn
    name := dn.2
    parent := dn.1
    sprite_sheet := asciiLower source
    sprite_txt := sprite_txt
    sprite_x := min x x2
    sprite_y := min y y2
    sprite_w := (max x x2 - min x x2) + 1
    sprite_h := (max y y2 - min y y2) + 1 }

/-- How a schema field is indexed. -/
inductive IndexKind
  | text
  | exactStr
  | numU64
deriving DecidableEq

structure FieldDef where
  fname : String
  kind : IndexKind
  indexed : Bool
  stored : Bool
  fast : Bool
deriving DecidableEq

/-- Modelled from the spec: the field table of §4.6. The current
`Fields::new` is missing from src — the `state.rs` present is a stale
revision (it indexes `type` as a stored `u64` and lacks the `extension`
and sprite fields) that cannot be the compiled definition because its
in-src callers `ggpk.rs` and `browse.rs` reference `fields.extension`,
`fields.sprite_*` and compare `type` against string constants. -/
def schemaFields : List FieldDef :=
  [⟨"path", .text, true, false, false⟩,
   ⟨"name", .exactStr, true, true, false⟩,
   ⟨"parent", .exactStr, true, true, true⟩,
   ⟨"type", .exactStr, true, true, false⟩,
   ⟨"version", .exactStr, true, true, false⟩,
   ⟨"extension", .exactStr, true, false, false⟩,
   ⟨"offset", .numU64, true, true, false⟩,
   ⟨"size", .numU64, true, true, false⟩,
   ⟨"bundle_size", .numU64, true, true, false⟩,
   ⟨"sprite_x", .numU64, true, true, false⟩,
   ⟨"sprite_y", .numU64, true, true, false⟩,
   ⟨"sprite_w", .numU64, true, true, false⟩,
   ⟨"sprite_h", .numU64, true, true, false⟩,
   ⟨"bundle", .exactStr, true, true, false⟩,
   ⟨"sprite_sheet", .exactStr, true, true, false⟩,
   ⟨"sprite_txt", .exactStr, true, true, false⟩]

/-- Splitting at the last occurrence: when `c` does not occur in `t`,
`rsplitOnce` on `d ++ c :: t` splits exactly there. -/
theorem rsplitOnce_append_of_not_mem {c : Nat} (d t : Str) (h : c ∉ t) :
    rsplitOnce c (d ++ c :: t) = some (d, t) := by
  induction d with
  | nil => simp [rsplitOnce, rsplitOnce_eq_none.mpr h]
  | cons b d' ih => simp [rsplitOnce, ih]

/-- The documents handed to the writer by the path walk: one per path, in
stream order. -/
theorem ingest_docs_eq (v : Str) (bns : List Str) (bss : List Nat)
    (files : List (Nat × Nat × Nat × Nat)) :
    ∀ (paths : List Str) (r : IngestResult),
      (List.foldl (ingestStep v bns bss files) r paths).docs
        = r.docs ++ paths.map (pathDoc v bns bss files) := by
  intro paths
  induction paths with
  | nil => intro r; simp
  | cons p rest ih =>
    intro r
    simp only [List.foldl_cons, ih, List.map_cons]
    simp [ingestStep]

/-- The sprite list accumulated by the path walk: the documents of
exactly the paths satisfying the capture condition, in stream order. -/
theorem ingest_sprites_eq (v : Str) (bns : List Str) (bss : List Nat)
    (files : List (Nat × Nat × Nat × Nat)) :
    ∀ (paths : List Str) (r : IngestResult),
      (List.foldl (ingestStep v bns bss files) r paths).sprites
        = r.sprites ++ (paths.filter isSpriteCaptured).map (pathDoc v bns bss files) := by
  intro paths
  induction paths with
  | nil => intro r; simp
  | cons p rest ih =>
    intro r
    simp only [List.foldl_cons, ih, List.filter_cons]
    by_cases hp : isSpriteCaptured p
    · simp [ingestStep, hp]
    · simp [ingestStep, hp]

/-- The dirs set accumulated by the path walk is the `add_dirs` fold. -/
theorem ingest_dirs_eq (v : Str) (bns : List Str) (bss : List Nat)
    (files : List (Nat × Nat × Nat × Nat)) :
    ∀ (paths : List Str) (r : IngestResult),
      (List.foldl (ingestStep v bns bss files) r paths).dirs
        = List.foldl (fun s q => add_dirs q s) r.dirs paths := by
  intro paths
  induction paths with
  | nil => intro r; simp
  | cons p rest ih =>
    intro r
    simp only [List.foldl_cons, ih]
    rfl

/-- C1 counterexample: with an empty hash→locator map, the path `"a"` is
an orphan (its hash is absent), yet the ingester still hands a document
for it to the writer — the claim that no document is added for an orphan
path is false. -/
theorem orphan_path_doc_added :
    lookupHash [] (murmur64a [97] 0x1337b33f) = none
    ∧ (ingest [118] [] [] [] [[97]]).docs
        = [{ version := [118], path := [97], name := [97], parent := [], typ := FILEt }] :=
  ⟨rfl, rfl⟩

/-- C1 (amended): every emitted path contributes exactly one File
document to the writer, in stream order — an orphan path (hash absent
from the file map) is logged but still produces a document, one carrying
the version/path/name/parent/type fields and none of the four locator
fields; ingestion of the remaining paths continues normally. -/
theorem orphan_paths_get_locatorless_docs (v : Str) (bns : List Str) (bss : List Nat)
    (files : List (Nat × Nat × Nat × Nat)) (paths : List Str) :
    (ingest v bns bss files paths).docs = paths.map (pathDoc v bns bss files)
    ∧ ∀ p, lookupHash files (murmur64a p 0x1337b33f) = none →
        (pathDoc v bns bss files p).offset = none
        ∧ (pathDoc v bns bss files p).size = none
        ∧ (pathDoc v bns bss files p).bundle = none
        ∧ (pathDoc v bns bss files p).bundle_size = none
        ∧ (pathDoc v bns bss files p).version = v
        ∧ (pathDoc v bns bss files p).path = p
        ∧ (pathDoc v bns bss files p).typ = FILEt := by
  constructor
  · simpa using ingest_docs_eq v bns bss files paths ⟨[], [], ∅⟩
  · intro p h
    unfold pathDoc to_doc
    simp [h]

/-- Witness for `orphan_paths_get_locatorless_docs`: two orphan paths,
both of which get locator-less documents and ingestion reaches both. -/
theorem orphan_paths_witness :
    (ingest [118] [] [] [] [[97], [98]]).docs
        = [pathDoc [118] [] [] [] [97], pathDoc [118] [] [] [] [98]]
    ∧ (pathDoc [118] [] [] [] [97]).offset = none
    ∧ (pathDoc [118] [] [] [] [97]).typ = FILEt :=
  ⟨(orphan_paths_get_locatorless_docs [118] [] [] [] [[97], [98]]).1,
   ((orphan_paths_get_locatorless_docs [118] [] [] [] [[97], [98]]).2 [97] rfl).1,
   ((orphan_paths_get_locatorless_docs [118] [] [] [] [[97], [98]]).2 [97]
     rfl).2.2.2.2.2.2⟩

/-- C5 counterexample: for the path `"dir.v2/readme"` the last path
segment (`"readme"`) contains no `.`, so the claim says `extension` is
absent — but the code splits the *full* path at its last `.` and stores
`extension = "v2/readme"`. -/
theorem extension_crosses_segments :
    (pathDoc [118] [] [] []
        [100, 105, 114, 46, 118, 50, 47, 114, 101, 97, 100, 109, 101]).extension
      = some [118, 50, 47, 114, 101, 97, 100, 109, 101]
    ∧ (pathDoc [118] [] [] []
        [100, 105, 114, 46, 118, 50, 47, 114, 101, 97, 100, 109, 101]).name
      = [114, 101, 97, 100, 109, 101]
    ∧ dotB ∉ ([114, 101, 97, 100, 109, 101] : Str) :=
  ⟨rfl, rfl, by decide⟩

/-- C5 (amended): the File document's `extension` is the substring after
the last `.` of the *full path*: it is absent exactly when the path
contains no `.` at all, and whenever it is present the path decomposes as
`pre ++ "." ++ extension` with no further `.` in the extension — so a `.`
occurring only in a directory segment does produce an extension (one
containing a `/`). -/
theorem extension_spec (v : Str) (bns : List Str) (bss : List Nat)
    (files : List (Nat × Nat × Nat × Nat)) (p : Str) :
    ((pathDoc v bns bss files p).extension = none ↔ dotB ∉ p)
    ∧ ∀ e, (pathDoc v bns bss files p).extension = some e →
        (∃ pre, p = pre ++ dotB :: e) ∧ dotB ∉ e := by
  have hext : (pathDoc v bns bss files p).extension
      = (rsplitOnce dotB p).map (fun de => de.2) := rfl
  constructor
  · rw [hext, Option.map_eq_none']
    exact rsplitOnce_eq_none
  · intro e he
    rw [hext, Option.map_eq_some'] at he
    obtain ⟨⟨d, e'⟩, hr, hsnd⟩ := he
    simp only at hsnd
    subst hsnd
    obtain ⟨hp, hn⟩ := rsplitOnce_eq_some hr
    exact ⟨⟨d, hp⟩, hn⟩

/-- Witness for `extension_spec`: a dotless path has no extension, and
`"a.t"` decomposes around its extension `"t"`. -/
theorem extension_spec_witness :
    (pathDoc [118] [] [] [] [97]).extension = none
    ∧ (∃ pre, ([97, 46, 116] : Str) = pre ++ dotB :: [116]) ∧ dotB ∉ ([116] : Str) :=
  ⟨(extension_spec [118] [] [] [] [97]).1.mpr (by decide),
   (extension_spec [118] [] [] [] [97, 46, 116]).2 [116] rfl⟩

/-- The capture condition of the callback, characterised: `ext == "txt"`
holds exactly when the path ends in `".txt"`, so a path is captured iff it
starts with `art` (no slash required) and ends in `.txt`. -/
theorem isSpriteCaptured_iff (p : Str) :
    isSpriteCaptured p = (artB.isPrefixOf p && dotTxtB.isSuffixOf p) := by
  unfold isSpriteCaptured
  cases hr : rsplitOnce dotB p with
  | none =>
    have hnm : dotB ∉ p := rsplitOnce_eq_none.mp hr
    have hsf : dotTxtB.isSuffixOf p = false := by
      rw [Bool.eq_false_iff]
      intro hs
      obtain ⟨q, hq⟩ := List.isSuffixOf_iff_suffix.mp hs
      apply hnm
      rw [← hq]
      simp [dotTxtB, dotB]
    simp [hsf]
  | some de =>
    obtain ⟨d, e⟩ := de
    obtain ⟨hp, hn⟩ := rsplitOnce_eq_some hr
    by_cases he : e = txtB
    · subst he
      have hsf : dotTxtB.isSuffixOf p = true := by
        rw [List.isSuffixOf_iff_suffix]
        exact ⟨d, by rw [hp]; rfl⟩
      simp [hsf, Bool.and_comm]
    · have hne : (e == txtB) = false := by simp [he]
      have hsf : dotTxtB.isSuffixOf p = false := by
        rw [Bool.eq_false_iff]
        intro hs
        obtain ⟨q, hq⟩ := List.isSuffixOf_iff_suffix.mp hs
        have h2 : rsplitOnce dotB p = some (q, txtB) := by
          rw [← hq]
          exact rsplitOnce_append_of_not_mem q txtB (by decide)
        rw [hr] at h2
        simp only [Option.some.injEq, Prod.mk.injEq] at h2
        exact he h2.2
      simp [hne, hsf]

/-- C6 counterexample: the single-segment path `"artifice.txt"` does not
start with `"art/"`, yet the ingester captures it into the sprites list —
the capture test is `starts_with("art")`, slash not included. -/
theorem sprite_capture_no_slash_needed :
    isSpriteCaptured [97, 114, 116, 105, 102, 105, 99, 101, 46, 116, 120, 116] = true
    ∧ ((ingest [118] [] [] []
          [[97, 114, 116, 105, 102, 105, 99, 101, 46, 116, 120, 116]]).sprites).length = 1
    ∧ artSlashB.isPrefixOf [97, 114, 116, 105, 102, 105, 99, 101, 46, 116, 120, 116]
        = false :=
  ⟨by decide, rfl, by decide⟩

/-- C6 (amended): a File document is captured into the sprites list if
and only if its path starts with `art` (the slash is *not* required) and
ends in `.txt`; the sprites list is exactly the documents of those paths,
in stream order. -/
theorem sprite_capture_spec (v : Str) (bns : List Str) (bss : List Nat)
    (files : List (Nat × Nat × Nat × Nat)) (paths : List Str) :
    (ingest v bns bss files paths).sprites
      = (paths.filter (fun p => artB.isPrefixOf p && dotTxtB.isSuffixOf p)).map
          (pathDoc v bns bss files) := by
  have h1 : (ingest v bns bss files paths).sprites
      = (paths.filter isSpriteCaptured).map (pathDoc v bns bss files) := by
    simpa using ingest_sprites_eq v bns bss files paths ⟨[], [], ∅⟩
  rw [h1]
  congr 1
  exact List.filter_congr fun p _ => isSpriteCaptured_iff p

/-- C8: the schema's `type` field is an exact (non-tokenized) string
field, indexed and stored, and the ingester stamps `file` on every File
document, `dir` on every Directory document and `sprite` on every Sprite
document. -/
theorem type_field_exact_string_stamped (v p d fn src : Str) (bns : List Str)
    (bss : List Nat) (files : List (Nat × Nat × Nat × Nat)) (stx : Option Str)
    (x y x2 y2 : Nat) :
    schemaFields.find? (fun f => f.fname == "type")
        = some ⟨"type", IndexKind.exactStr, true, true, false⟩
    ∧ (pathDoc v bns bss files p).typ = FILEt
    ∧ (mkDirDoc v d).typ = DIRt
    ∧ (mkSpriteDoc v stx fn src x y x2 y2).typ = SPRITEt
    ∧ FILEt = [102, 105, 108, 101] ∧ DIRt = [100, 105, 114]
    ∧ SPRITEt = [115, 112, 114, 105, 116, 101] :=
  ⟨by decide, rfl, rfl, rfl, rfl, rfl, rfl⟩

/-! ## Directory closure (C2): the `add_dirs` early-break still collects
every proper prefix, because the `dirs` set is prefix-closed throughout
the walk. -/

/-- The prefix-closure invariant maintained by the `dirs` set. -/
def dirsClosed (S : Finset Str) : Prop :=
  ∀ s ∈ S, ∀ q ∈ properPrefixes s, q ∈ S

theorem properPrefixes_none {p : Str} (h : rsplitOnce slashB p = none) :
    properPrefixes p = [] := by
  rw [properPrefixes.eq_def]
  split
  · rfl
  · rename_i d t heq
    rw [h] at heq
    cases heq

theorem properPrefixes_some {p d t : Str} (h : rsplitOnce slashB p = some (d, t)) :
    properPrefixes p = d :: properPrefixes d := by
  rw [properPrefixes.eq_def]
  split
  · rename_i heq
    rw [h] at heq
    cases heq
  · rename_i d' t' heq
    rw [h] at heq
    simp only [Option.some.injEq, Prod.mk.injEq] at heq
    rw [heq.1]

theorem add_dirs_none {p : Str} {S : Finset Str} (h : rsplitOnce slashB p = none) :
    add_dirs p S = S := by
  rw [add_dirs.eq_def]
  split
  · rfl
  · rename_i d t heq
    rw [h] at heq
    cases heq

theorem add_dirs_some {p d t : Str} {S : Finset Str}
    (h : rsplitOnce slashB p = some (d, t)) :
    add_dirs p S = if d ∈ S then S else add_dirs d (insert d S) := by
  rw [add_dirs.eq_def]
  split
  · rename_i heq
    rw [h] at heq
    cases heq
  · rename_i d' t' heq
    rw [h] at heq
    simp only [Option.some.injEq, Prod.mk.injEq] at heq
    rw [heq.1]

theorem mem_properPrefixes_length_lt :
    ∀ (n : Nat) (p : Str), p.length ≤ n → ∀ q ∈ properPrefixes p, q.length < p.length := by
  intro n
  induction n with
  | zero =>
    intro p hp q hq
    have h0 : p = [] := List.length_eq_zero.mp (Nat.le_zero.mp hp)
    subst h0
    rw [properPrefixes_none (p := []) rfl] at hq
    cases hq
  | succ n ih =>
    intro p hp q hq
    cases hr : rsplitOnce slashB p with
    | none =>
      rw [properPrefixes_none hr] at hq
      cases hq
    | some dt =>
      obtain ⟨d, t⟩ := dt
      have hd : d.length < p.length := rsplitOnce_length_lt hr
      rw [properPrefixes_some hr] at hq
      rcases List.mem_cons.mp hq with hq | hq
      · subst hq; exact hd
      · have := ih d (by omega) q hq
        omega

theorem properPrefixes_chain :
    ∀ (n : Nat) (p : Str), p.length ≤ n →
      ∀ q ∈ properPrefixes p, ∀ r ∈ properPrefixes q, r ∈ properPrefixes p := by
  intro n
  induction n with
  | zero =>
    intro p hp q hq r hr
    have h0 : p = [] := List.length_eq_zero.mp (Nat.le_zero.mp hp)
    subst h0
    rw [properPrefixes_none (p := []) rfl] at hq
    cases hq
  | succ n ih =>
    intro p hp q hq r hr
    cases hs : rsplitOnce slashB p with
    | none =>
      rw [properPrefixes_none hs] at hq
      cases hq
    | some dt =>
      obtain ⟨d, t⟩ := dt
      have hd : d.length < p.length := rsplitOnce_length_lt hs
      rw [properPrefixes_some hs] at hq ⊢
      rcases List.mem_cons.mp hq with hq | hq
      · subst hq
        exact List.mem_cons_of_mem _ hr
      · exact List.mem_cons_of_mem d (ih d (by omega) q hq r hr)

theorem properPrefixes_nodup :
    ∀ (n : Nat) (p : Str), p.length ≤ n → (properPrefixes p).Nodup := by
  intro n
  induction n with
  | zero =>
    intro p hp
    have h0 : p = [] := List.length_eq_zero.mp (Nat.le_zero.mp hp)
    subst h0
    rw [properPrefixes_none (p := []) rfl]
    exact List.nodup_nil
  | succ n ih =>
    intro p hp
    cases hr : rsplitOnce slashB p with
    | none =>
      rw [properPrefixes_none hr]
      exact List.nodup_nil
    | some dt =>
      obtain ⟨d, t⟩ := dt
      have hd : d.length < p.length := rsplitOnce_length_lt hr
      rw [properPrefixes_some hr, List.nodup_cons]
      refine ⟨?_, ih d (by omega)⟩
      intro hmem
      have := mem_properPrefixes_length_lt d.length d le_rfl d hmem
      omega

/-- The number of proper prefixes equals the number of slashes. -/
theorem properPrefixes_length_eq_count :
    ∀ (n : Nat) (p : Str), p.length ≤ n →
      (properPrefixes p).length = List.count slashB p := by
  intro n
  induction n with
  | zero =>
    intro p hp
    have h0 : p = [] := List.length_eq_zero.mp (Nat.le_zero.mp hp)
    subst h0
    rw [properPrefixes_none (p := []) rfl]
    rfl
  | succ n ih =>
    intro p hp
    cases hr : rsplitOnce slashB p with
    | none =>
      rw [properPrefixes_none hr]
      have hnm := rsplitOnce_eq_none.mp hr
      simp [List.count_eq_zero.mpr hnm]
    | some dt =>
      obtain ⟨d, t⟩ := dt
      have hd : d.length < p.length := rsplitOnce_length_lt hr
      obtain ⟨hp2, hnt⟩ := rsplitOnce_eq_some hr
      rw [properPrefixes_some hr, hp2]
      simp only [List.length_cons, List.count_append, List.count_cons,
        List.count_eq_zero.mpr hnt]
      rw [ih d (by omega)]
      simp

theorem subset_add_dirs :
    ∀ (n : Nat) (p : Str), p.length ≤ n → ∀ S : Finset Str, S ⊆ add_dirs p S := by
  intro n
  induction n with
  | zero =>
    intro p hp S
    have h0 : p = [] := List.length_eq_zero.mp (Nat.le_zero.mp hp)
    subst h0
    rw [add_dirs_none (p := []) rfl]
  | succ n ih =>
    intro p hp S
    cases hr : rsplitOnce slashB p with
    | none =>
      rw [add_dirs_none hr]
    | some dt =>
      obtain ⟨d, t⟩ := dt
      have hd : d.length < p.length := rsplitOnce_length_lt hr
      rw [add_dirs_some hr]
      by_cases hdm : d ∈ S
      · rw [if_pos hdm]
      · rw [if_neg hdm]
        exact (Finset.subset_insert d S).trans (ih d (by omega) (insert d S))

theorem subset_foldl_add_dirs (paths : List Str) :
    ∀ S : Finset Str, S ⊆ List.foldl (fun s q => add_dirs q s) S paths := by
  induction paths with
  | nil => intro S; simp
  | cons p rest ih =>
    intro S
    simp only [List.foldl_cons]
    exact (subset_add_dirs p.length p le_rfl S).trans (ih (add_dirs p S))

/-- The heart of C2: on a prefix-closed set (extended by any elements at
least as long as `p`, which the walk inserts on the way down), `add_dirs`
collects *all* proper prefixes of `p` despite its early break. -/
theorem add_dirs_union_eq :
    ∀ (n : Nat) (p : Str), p.length ≤ n → ∀ (S E : Finset Str), dirsClosed S →
      (∀ e ∈ E, p.length ≤ e.length) →
      add_dirs p (S ∪ E) = (S ∪ E) ∪ (properPrefixes p).toFinset := by
  intro n
  induction n with
  | zero =>
    intro p hp S E _ _
    have h0 : p = [] := List.length_eq_zero.mp (Nat.le_zero.mp hp)
    subst h0
    rw [add_dirs_none (p := []) rfl, properPrefixes_none (p := []) rfl]
    simp
  | succ n ih =>
    intro p hp S E hS hE
    cases hr : rsplitOnce slashB p with
    | none =>
      rw [add_dirs_none hr, properPrefixes_none hr]
      simp
    | some dt =>
      obtain ⟨d, t⟩ := dt
      have hd : d.length < p.length := rsplitOnce_length_lt hr
      rw [add_dirs_some hr, properPrefixes_some hr]
      by_cases hdS : d ∈ S
      · rw [if_pos (Finset.mem_union_left E hdS)]
        have hsub : (d :: properPrefixes d).toFinset ⊆ S ∪ E := by
          intro x hx
          rw [List.toFinset_cons, Finset.mem_insert] at hx
          rcases hx with hx | hx
          · subst hx
            exact Finset.mem_union_left E hdS
          · exact Finset.mem_union_left E (hS d hdS x (List.mem_toFinset.mp hx))
        exact (Finset.union_eq_left.mpr hsub).symm
      · have hdE : d ∉ E := fun hdE => by have := hE d hdE; omega
        rw [if_neg (by simp [Finset.mem_union, hdS, hdE])]
        have hins : insert d (S ∪ E) = S ∪ insert d E := by
          ext x
          simp only [Finset.mem_insert, Finset.mem_union]
          tauto
        have hE' : ∀ e ∈ insert d E, d.length ≤ e.length := by
          intro e he
          rcases Finset.mem_insert.mp he with he | he
          · subst he; exact le_rfl
          · have := hE e he; omega
        rw [hins, ih d (by omega) S (insert d E) hS hE']
        ext x
        simp only [Finset.mem_union, Finset.mem_insert, List.mem_toFinset,
          List.toFinset_cons, List.mem_cons]
        tauto

theorem add_dirs_closed_eq (p : Str) (S : Finset Str) (hS : dirsClosed S) :
    add_dirs p S = S ∪ (properPrefixes p).toFinset := by
  have h := add_dirs_union_eq p.length p le_rfl S ∅ hS (by simp)
  simpa using h

theorem dirsClosed_union_prefixes (S : Finset Str) (p : Str) (hS : dirsClosed S) :
    dirsClosed (S ∪ (properPrefixes p).toFinset) := by
  intro s hs q hq
  rcases Finset.mem_union.mp hs with hs | hs
  · exact Finset.mem_union_left _ (hS s hs q hq)
  · have hsp : s ∈ properPrefixes p := List.mem_toFinset.mp hs
    have hqp : q ∈ properPrefixes p :=
      properPrefixes_chain p.length p le_rfl s hsp q hq
    exact Finset.mem_union_right _ (List.mem_toFinset.mpr hqp)

theorem foldl_add_dirs_spec (paths : List Str) :
    ∀ S : Finset Str, dirsClosed S →
      dirsClosed (List.foldl (fun s q => add_dirs q s) S paths)
      ∧ ∀ p ∈ paths,
          (properPrefixes p).toFinset ⊆ List.foldl (fun s q => add_dirs q s) S paths := by
  induction paths with
  | nil =>
    intro S hS
    refine ⟨hS, ?_⟩
    intro p hp
    cases hp
  | cons p rest ih =>
    intro S hS
    have h1 : add_dirs p S = S ∪ (properPrefixes p).toFinset := add_dirs_closed_eq p S hS
    have hS' : dirsClosed (add_dirs p S) := by
      rw [h1]
      exact dirsClosed_union_prefixes S p hS
    obtain ⟨hc, hm⟩ := ih (add_dirs p S) hS'
    simp only [List.foldl_cons]
    refine ⟨hc, ?_⟩
    intro q hq
    rcases List.mem_cons.mp hq with hq | hq
    · subst hq
      have hsub1 : (properPrefixes q).toFinset ⊆ add_dirs q S := by
        rw [h1]
        exact Finset.subset_union_right
      exact hsub1.trans (subset_foldl_add_dirs rest (add_dirs q S))
    · exact hm q hq

/-- Each path in the dirs set yields exactly one Directory document with
that path; paths outside the set yield none. -/
theorem countP_path_dirDocs (v q : Str) (D : Finset Str) :
    Multiset.countP (fun dd => dd.path = q) (dirDocs v D)
      = if q ∈ D then 1 else 0 := by
  unfold dirDocs
  rw [Multiset.countP_map]
  have hfil : Multiset.filter (fun a => (mkDirDoc v a).path = q) D.val
      = Multiset.filter (fun a => q = a) D.val := by
    apply Multiset.filter_congr
    intro x _
    show ((mkDirDoc v x).path = q) ↔ (q = x)
    exact ⟨fun h => h.symm, fun h => h.symm⟩
  rw [hfil, ← Multiset.countP_eq_card_filter]
  by_cases hq : q ∈ D
  · rw [if_pos hq]
    exact Multiset.count_eq_one_of_mem D.nodup hq
  · rw [if_neg hq]
    exact Multiset.count_eq_zero.mpr hq

/-- Counting Directory documents whose path lies in a duplicate-free list
contained in the dirs set. -/
theorem countP_mem_dirDocs (v : Str) (L : List Str) (D : Finset Str)
    (hL : L.Nodup) (hsub : L.toFinset ⊆ D) :
    Multiset.countP (fun dd => dd.path ∈ L) (dirDocs v D) = L.length := by
  unfold dirDocs
  rw [Multiset.countP_map]
  have hfil : Multiset.filter (fun a => (mkDirDoc v a).path ∈ L) D.val
      = Multiset.filter (fun a => a ∈ L) D.val := by
    apply Multiset.filter_congr
    intro x _
    exact Iff.rfl
  rw [hfil]
  have hv : Multiset.filter (fun a => a ∈ L) D.val
      = (D.filter (fun a => a ∈ L)).val := rfl
  rw [hv]
  have hfeq : D.filter (fun a => a ∈ L) = L.toFinset := by
    ext x
    simp only [Finset.mem_filter, List.mem_toFinset]
    exact ⟨fun h => h.2, fun h => ⟨hsub (List.mem_toFinset.mpr h), h⟩⟩
  rw [hfeq]
  exact List.toFinset_card_of_nodup hL

/-- C2: after ingesting a version, for every File document whose path `p`
contains `k` slashes, the writer receives exactly one Directory document
for each of the `k` proper slash-delimited prefixes of `p` — in total
exactly `k` Directory documents with those paths — despite the early
break in `add_dirs`. -/
theorem directory_closure (v : Str) (bns : List Str) (bss : List Nat)
    (files : List (Nat × Nat × Nat × Nat)) (paths : List Str) (p : Str)
    (hp : p ∈ paths) :
    (∀ q ∈ properPrefixes p,
        Multiset.countP (fun dd => dd.path = q)
          (dirDocs v (ingest v bns bss files paths).dirs) = 1)
    ∧ Multiset.countP (fun dd => dd.path ∈ properPrefixes p)
        (dirDocs v (ingest v bns bss files paths).dirs)
      = List.count slashB p := by
  have hD : (ingest v bns bss files paths).dirs
      = List.foldl (fun s q => add_dirs q s) ∅ paths := by
    simpa using ingest_dirs_eq v bns bss files paths ⟨[], [], ∅⟩
  have hcl0 : dirsClosed (∅ : Finset Str) := by
    intro s hs
    exact absurd hs (Finset.not_mem_empty s)
  obtain ⟨_, hmem⟩ := foldl_add_dirs_spec paths ∅ hcl0
  have hsub : (properPrefixes p).toFinset ⊆ (ingest v bns bss files paths).dirs := by
    rw [hD]
    exact hmem p hp
  constructor
  · intro q hq
    rw [countP_path_dirDocs, if_pos (hsub (List.mem_toFinset.mpr hq))]
  · rw [countP_mem_dirDocs v (properPrefixes p) _
      (properPrefixes_nodup p.length p le_rfl) hsub]
    exact properPrefixes_length_eq_count p.length p le_rfl

/-- Witness for `directory_closure`: ingesting the single path `"a/b/c"`
gives exactly one Directory document each for `"a/b"` and `"a"`, two in
total, matching the two slashes. -/
theorem directory_closure_witness :
    (∀ q ∈ properPrefixes [97, 47, 98, 47, 99],
        Multiset.countP (fun dd => dd.path = q)
          (dirDocs [118] (ingest [118] [] [] [] [[97, 47, 98, 47, 99]]).dirs) = 1)
    ∧ Multiset.countP (fun dd => dd.path ∈ properPrefixes [97, 47, 98, 47, 99])
        (dirDocs [118] (ingest [118] [] [] [] [[97, 47, 98, 47, 99]]).dirs)
      = List.count slashB [97, 47, 98, 47, 99] :=
  directory_closure [118] [] [] [] [[97, 47, 98, 47, 99]] [97, 47, 98, 47, 99]
    (List.mem_singleton.mpr rfl)

/-! ## Path-table decoder (src/index/ggpk.rs, `decode_paths`)

The byte-level cursor loop is embedded as `decodePathsGo`; the spec's
record-level description (command words, toggle/emit phases, base list) is
embedded separately as `tokenizeRecs` (the record stream) driving
`emitOfRecs` (the phase machine of §4.3, following the spec's words), and
the two are proved to agree on every input. -/

/-- `read_u32` at the cursor: four little-endian bytes, `none` when fewer
remain (the `read_exact` error). -/
def readU32 : List Nat → Option (Nat × List Nat)
  | b0 :: b1 :: b2 :: b3 :: rest =>
    some (b0 + 256 * b1 + 65536 * b2 + 16777216 * b3, rest)
  | _ => none

/-- `BufRead::read_until(0)`: consume up to and including the first NUL
byte; reaching end-of-buffer first returns the bytes read, without
error. -/
def readUntilNul : List Nat → List Nat × List Nat
  | [] => ([], [])
  | b :: rest =>
    if b = 0 then ([0], rest)
    else
      let fr := readUntilNul rest
      (b :: fr.1, fr.2)

/-- `str::trim_end_matches('\0')`: strip all trailing NUL bytes. -/
def trimEndNul (l : List Nat) : List Nat :=
  (l.reverse.dropWhile (fun b => b = 0)).reverse

/-- Byte in a closed range, as a Bool. -/
def btw (lo b hi : Nat) : Bool := decide (lo ≤ b) && decide (b ≤ hi)

/-- UTF-8 continuation byte. -/
def isCont (b : Nat) : Bool := btw 0x80 b 0xBF

/-- Success condition of `std::str::from_utf8`: the byte list is
well-formed UTF-8 (shortest forms only, no surrogates, max U+10FFFF). -/
def isValidUtf8 : List Nat → Bool
  | [] => true
  | b :: rest =>
    if b ≤ 0x7F then isValidUtf8 rest
    else if btw 0xC2 b 0xDF then
      match rest with
      | c1 :: r => isCont c1 && isValidUtf8 r
      | [] => false
    else if b = 0xE0 then
      match rest with
      | c1 :: c2 :: r => btw 0xA0 c1 0xBF && isCont c2 && isValidUtf8 r
      | _ => false
    else if btw 0xE1 b 0xEC || b = 0xEE || b = 0xEF then
      match rest with
      | c1 :: c2 :: r => isCont c1 && isCont c2 && isValidUtf8 r
      | _ => false
    else if b = 0xED then
      match rest with
      | c1 :: c2 :: r => btw 0x80 c1 0x9F && isCont c2 && isValidUtf8 r
      | _ => false
    else if b = 0xF0 then
      match rest with
      | c1 :: c2 :: c3 :: r => btw 0x90 c1 0xBF && isCont c2 && isCont c3 && isValidUtf8 r
      | _ => false
    else if btw 0xF1 b 0xF3 then
      match rest with
      | c1 :: c2 :: c3 :: r => isCont c1 && isCont c2 && isCont c3 && isValidUtf8 r
      | _ => false
    else if b = 0xF4 then
      match rest with
      | c1 :: c2 :: c3 :: r => btw 0x80 c1 0x8F && isCont c2 && isCont c3 && isValidUtf8 r
      | _ => false
    else false

theorem readU32_length : ∀ {data : List Nat} {cmd : Nat} {rest : List Nat},
    readU32 data = some (cmd, rest) → data.length = rest.length + 4 := by
  intro data cmd rest h
  match data with
  | [] => cases h
  | [_] => cases h
  | [_, _] => cases h
  | [_, _, _] => cases h
  | b0 :: b1 :: b2 :: b3 :: r =>
    simp only [readU32, Option.some.injEq, Prod.mk.injEq] at h
    rw [← h.2]
    simp

theorem readUntilNul_length_le : ∀ (l : List Nat), (readUntilNul l).2.length ≤ l.length := by
  intro l
  induction l with
  | nil => simp [readUntilNul]
  | cons b rest ih =>
    by_cases hb : b = 0
    · subst hb
      simp [readUntilNul]
    · simp only [readUntilNul, if_neg hb, List.length_cons]
      omega

/-- Builds the full path of one record: `bases[cmd-1] ++ fragment` when
`cmd ≤ |bases|`, the bare fragment otherwise (ggpk.rs lines 302-308). -/
def mkFull (bases : List Str) (cmd : Nat) (path : Str) : Str :=
  if cmd ≤ bases.length then bases.getD (cmd - 1) [] ++ path else path

/-- The `decode_paths` loop (ggpk.rs lines 283-317), carrying the base
list, the phase flag (`false` = emit phase, the initial state) and the
accumulated callback invocations; `none` is the error return (truncated
command word or invalid UTF-8 fragment). -/
def decodePathsGo (bases : List Str) (basePhase : Bool) (acc : List Str)
    (data : List Nat) : Option (List Str) :=
  match data with
  | [] => some acc
  | b :: dd =>
    match h : readU32 (b :: dd) with
    | none => none
    | some (cmd, rest) =>
      if cmd = 0 then
        decodePathsGo (if !basePhase then [] else bases) (!basePhase) acc rest
      else if isValidUtf8 (readUntilNul rest).1 then
        if basePhase then
          decodePathsGo (bases ++ [mkFull bases cmd (trimEndNul (readUntilNul rest).1)])
            basePhase acc (readUntilNul rest).2
        else
          decodePathsGo bases basePhase
            (acc ++ [mkFull bases cmd (trimEndNul (readUntilNul rest).1)])
            (readUntilNul rest).2
      else none
termination_by data.length
decreasing_by
  · have h1 := readU32_length h
    omega
  · have h1 := readU32_length h
    have h2 := readUntilNul_length_le rest
    omega
  · have h1 := readU32_length h
    have h2 := readUntilNul_length_le rest
    omega

/-- `ggpk::decode_paths` run from its initial state, returning the full
sequence of callback invocations in order. -/
def decode_paths (data : List Nat) : Option (List Str) :=
  decodePathsGo [] false [] data

/-- One record of the path table as the spec describes the stream: a zero
command word (`toggle`) or a non-zero command word with its NUL-stripped
fragment. -/
inductive PathRec
  | toggle
  | frag (cmd : Nat) (s : Str)
deriving DecidableEq

/-- Record-level tokenization of the path-table byte stream. -/
def tokenizeRecs (data : List Nat) : Option (List PathRec) :=
  match data with
  | [] => some []
  | b :: dd =>
    match h : readU32 (b :: dd) with
    | none => none
    | some (cmd, rest) =>
      if cmd = 0 then (tokenizeRecs rest).map (fun rs => PathRec.toggle :: rs)
      else if isValidUtf8 (readUntilNul rest).1 then
        (tokenizeRecs (readUntilNul rest).2).map
          (fun rs => PathRec.frag cmd (trimEndNul (readUntilNul rest).1) :: rs)
      else none
termination_by data.length
decreasing_by
  · have h1 := readU32_length h
    omega
  · have h1 := readU32_length h
    have h2 := readUntilNul_length_le rest
    omega

/-- The phase machine of the spec (§4.3), driven over the record stream:
a toggle flips the phase and clears the base list on entering
base-building; a fragment record builds `mkFull`, appending it to the base
list in base-building phase and emitting it in emit phase. -/
def emitOfRecs (basePhase : Bool) (bases : List Str) : List PathRec → List Str
  | [] => []
  | PathRec.toggle :: rs =>
    emitOfRecs (!basePhase) (if !basePhase then [] else bases) rs
  | PathRec.frag cmd s :: rs =>
    if basePhase then emitOfRecs basePhase (bases ++ [mkFull bases cmd s]) rs
    else mkFull bases cmd s :: emitOfRecs basePhase bases rs

/-- The spec-side decoder: tokenize, then run the phase machine from the
emit phase with an empty base list. -/
def specDecodePaths (data : List Nat) : Option (List Str) :=
  (tokenizeRecs data).map (emitOfRecs false [])

theorem decodePathsGo_eq_spec :
    ∀ (n : Nat) (data : List Nat), data.length ≤ n →
      ∀ (bases : List Str) (basePhase : Bool) (acc : List Str),
        decodePathsGo bases basePhase acc data
          = (tokenizeRecs data).map (fun rs => acc ++ emitOfRecs basePhase bases rs) := by
  intro n
  induction n with
  | zero =>
    intro data hd bases phase acc
    have h0 : data = [] := List.length_eq_zero.mp (Nat.le_zero.mp hd)
    subst h0
    simp [decodePathsGo, tokenizeRecs, emitOfRecs]
  | succ n ih =>
    intro data hd bases phase acc
    cases data with
    | nil => simp [decodePathsGo, tokenizeRecs, emitOfRecs]
    | cons b dd =>
      rw [decodePathsGo.eq_def, tokenizeRecs.eq_def]
      simp only
      split
      · simp
      · rename_i cmd rest heq
        have hlen : rest.length + 4 = dd.length + 1 := by
          have := (readU32_length heq).symm
          simpa using this
        by_cases hc : cmd = 0
        · rw [if_pos hc, if_pos hc]
          rw [ih rest (by simp only [List.length_cons] at hd; omega)
            (if !phase then [] else bases) (!phase) acc]
          rw [Option.map_map]
          apply congrArg (fun f => Option.map f (tokenizeRecs rest))
          funext rs
          simp [emitOfRecs]
        · rw [if_neg hc, if_neg hc]
          by_cases hv : isValidUtf8 (readUntilNul rest).1
          · rw [if_pos hv, if_pos hv]
            have hle : (readUntilNul rest).2.length ≤ n := by
              have h2 := readUntilNul_length_le rest
              simp only [List.length_cons] at hd
              omega
            cases phase with
            | false =>
              rw [if_neg (by simp)]
              rw [ih (readUntilNul rest).2 hle bases false
                (acc ++ [mkFull bases cmd (trimEndNul (readUntilNul rest).1)])]
              rw [Option.map_map]
              apply congrArg (fun f => Option.map f (tokenizeRecs (readUntilNul rest).2))
              funext rs
              simp [emitOfRecs]
            | true =>
              rw [if_pos rfl]
              rw [ih (readUntilNul rest).2 hle
                (bases ++ [mkFull bases cmd (trimEndNul (readUntilNul rest).1)]) true acc]
              rw [Option.map_map]
              apply congrArg (fun f => Option.map f (tokenizeRecs (readUntilNul rest).2))
              funext rs
              simp [emitOfRecs]
          · rw [if_neg hv, if_neg hv]
            simp

/-- C4: the byte-level decoder agrees with the spec's record-level
description on every input: records are processed in stream order, a zero
command toggles the phase (clearing the base list on entering
base-building), a non-zero command `cmd` with its NUL-stripped fragment
yields `bases[cmd-1] ++ fragment` when `cmd ≤ |bases|` and the bare
fragment otherwise, the result is appended to the base list in
base-building phase, and in emit phase it is delivered to the callback —
exactly once per record, in stream order (the returned list is the
sequence of callback invocations). -/
theorem decode_paths_spec (data : List Nat) :
    decode_paths data = specDecodePaths data := by
  unfold decode_paths specDecodePaths
  rw [decodePathsGo_eq_spec data.length data le_rfl [] false []]
  apply congrArg (fun f => Option.map f (tokenizeRecs data))
  funext rs
  simp
